import Mathlib

/-!
Verification of the procedural-backrooms core against its specification.

The definitions below are shallow embeddings of the JavaScript source:
* the randomized-DFS maze generator of `Terrain._Init` (src/unnamed/part_001),
* the axis-aligned push-out collision step shared by
  `BasicCharacterController._resolve2DCollisions` (src/js/CharacterController.js)
  and `EnemyController._resolveAABBCollisions` (src/js/Camera.js),
* `EnemyController._separateFromTarget`, and
* the enemy behaviour state machine and damage handling of `EnemyController`
  (second controller in src/js/Camera.js) together with
  `BasicCharacterController.damage`.

Machine numbers are modelled exactly: grid coordinates as `ℤ`, clock and
range quantities as `ℚ`, world positions (which flow through square roots)
as `ℝ`.  JavaScript's `-Infinity` timer sentinels are modelled with
`WithBot ℚ`.
-/

namespace Backrooms

/-! ### Maze generator (Terrain._Init, src/unnamed/part_001) -/

/-- The four carving directions, in the order of the source's `dirKeys`. -/
inductive Dir
| N
| S
| E
| W
deriving DecidableEq, Repr, Fintype

/-- `dirKeys = ['N', 'S', 'E', 'W']`. -/
def dirKeys : List Dir := [Dir.N, Dir.S, Dir.E, Dir.W]

/-- Column offset of a direction (`DIRS[d].di`). -/
def di : Dir → ℤ
| Dir.N => 0
| Dir.S => 0
| Dir.E => 1
| Dir.W => -1

/-- Row offset of a direction (`DIRS[d].dj`). -/
def dj : Dir → ℤ
| Dir.N => 1
| Dir.S => -1
| Dir.E => 0
| Dir.W => 0

/-- `DIRS[d].opposite`. -/
def opposite : Dir → Dir
| Dir.N => Dir.S
| Dir.S => Dir.N
| Dir.E => Dir.W
| Dir.W => Dir.E

/-- A grid cell `(i, j)`. -/
abbrev Cell := ℤ × ℤ

/-- The neighbour of a cell in a direction: `(ni, nj) = (i + di, j + dj)`. -/
def move (c : Cell) (d : Dir) : Cell := (c.1 + di d, c.2 + dj d)

/-- `inBounds(i, j) = i >= 0 && i < cols && j >= 0 && j < rows`. -/
def inBounds (cols rows : ℕ) (c : Cell) : Bool :=
  decide (0 ≤ c.1) && decide (c.1 < (cols : ℤ)) &&
  decide (0 ≤ c.2) && decide (c.2 < (rows : ℤ))

/-- Swap two positions of a list (the body of the Fisher-Yates loop). -/
def swapIdx {α : Type} (l : List α) (a b : ℕ) : List α :=
  match l.get? a, l.get? b with
  | some x, some y => (l.set a y).set b x
  | _, _ => l

/-- The Fisher-Yates loop `for (let i = arr.length - 1; i > 0; i--)`;
`js i` supplies the random draw used at index `i`, reduced mod `i + 1`
exactly as `(Math.random() * (i + 1)) | 0` lands in `0..i`. -/
def fisherAux {α : Type} (js : ℕ → ℕ) : ℕ → List α → List α
  | 0, l => l
  | i + 1, l => fisherAux js i (swapIdx l (i + 1) (js (i + 1) % (i + 2)))

/-- The source's `shuffle`, parametrized by the stream of random draws. -/
def shuffle {α : Type} (l : List α) (js : ℕ → ℕ) : List α :=
  fisherAux js (l.length - 1) l

/-- State of the randomized DFS: the `visited` flags, the explicit `stack`,
the `visitOrder` list, and the per-cell `gridOpen` openings. -/
structure MazeState where
  visited : Cell → Bool
  stack : List Cell
  order : List Cell
  opened : Cell → Dir → Bool

/-- Scan the shuffled options for the first direction whose neighbour is
in bounds and unvisited (the `for (const d of options)` loop). -/
def findAdvance (cols rows : ℕ) (visited : Cell → Bool) (top : Cell) :
    List Dir → Option Dir
  | [] => none
  | d :: ds =>
    if inBounds cols rows (move top d) && !(visited (move top d)) then some d
    else findAdvance cols rows visited top ds

/-- Set one opening flag (`gridOpen[idx][d] = true`). -/
def carve (opened : Cell → Dir → Bool) (c : Cell) (d : Dir) : Cell → Dir → Bool :=
  fun c2 d2 => if c2 = c ∧ d2 = d then true else opened c2 d2

/-- One iteration of the `while (stack.length)` loop: either carve toward the
first admissible direction and push the neighbour, or pop. -/
def dfsStep (cols rows : ℕ) (opts : List Dir) (s : MazeState) : MazeState :=
  match s.stack with
  | [] => s
  | top :: rest =>
    match findAdvance cols rows s.visited top opts with
    | some d =>
      let n := move top d
      { visited := fun c => if c = n then true else s.visited c
        stack := n :: top :: rest
        order := s.order ++ [n]
        opened := carve (carve s.opened top d) n (opposite d) }
    | none =>
      { visited := s.visited, stack := rest, order := s.order, opened := s.opened }

/-- The DFS loop, with explicit fuel (the source loop terminates; the fuel
supplied below is proved sufficient).  `rng step` is the draw stream fed to
the shuffle of iteration `step`. -/
def dfsRun (cols rows : ℕ) (rng : ℕ → ℕ → ℕ) : ℕ → ℕ → MazeState → MazeState
  | 0, _, s => s
  | fuel + 1, step, s =>
    match s.stack with
    | [] => s
    | _ :: _ =>
      dfsRun cols rows rng fuel (step + 1)
        (dfsStep cols rows (shuffle dirKeys (rng step)) s)

/-- Initial DFS state: cell `(0,0)` visited, pushed and recorded. -/
def startState : MazeState :=
  { visited := fun c => decide (c = ((0 : ℤ), (0 : ℤ)))
    stack := [((0 : ℤ), (0 : ℤ))]
    order := [((0 : ℤ), (0 : ℤ))]
    opened := fun _ _ => false }

/-- Largest `j ≤ k` with `j * j ≤ n` (0 when none); kernel-evaluable helper
for the integer square root. -/
def floorSqrtAux (n : ℕ) : ℕ → ℕ
  | 0 => 0
  | k + 1 => if (k + 1) * (k + 1) ≤ n then k + 1 else floorSqrtAux n k

/-- `Math.floor(Math.sqrt(n))` on a natural number (proved equal to
`Nat.sqrt` below). -/
def floorSqrt (n : ℕ) : ℕ := floorSqrtAux n n

/-- `rows = Math.floor(Math.sqrt(targetRooms)); if (rows < 1) rows = 1`. -/
def mazeRows (targetRooms : ℕ) : ℕ := max (floorSqrt targetRooms) 1

/-- `cols = Math.ceil(targetRooms / rows)`. -/
def mazeCols (targetRooms : ℕ) : ℕ :=
  (targetRooms + mazeRows targetRooms - 1) / mazeRows targetRooms

/-- Run the whole generation loop for a target room count. -/
def mazeGen (targetRooms : ℕ) (rng : ℕ → ℕ → ℕ) : MazeState :=
  dfsRun (mazeCols targetRooms) (mazeRows targetRooms) rng
    (2 * (mazeCols targetRooms * mazeRows targetRooms)) 0 startState

/-- `builtCells = visitOrder.slice(0, targetRooms)`. -/
def builtCells (targetRooms : ℕ) (rng : ℕ → ℕ → ℕ) : List Cell :=
  (mazeGen targetRooms rng).order.take targetRooms

/-- The restricted opening map: an opening survives only when held by a built
cell toward a built neighbour (the `openings` map built over `builtCells`). -/
def finalOpen (targetRooms : ℕ) (rng : ℕ → ℕ → ℕ) (c : Cell) (d : Dir) : Bool :=
  (builtCells targetRooms rng).contains c &&
  (mazeGen targetRooms rng).opened c d &&
  (builtCells targetRooms rng).contains (move c d)

/-- The set of in-bounds cells, used to count DFS visits. -/
def boundsFinset (cols rows : ℕ) : Finset Cell :=
  (Finset.range cols ×ˢ Finset.range rows).image
    (fun p : ℕ × ℕ => ((p.1 : ℤ), (p.2 : ℤ)))

/-- Invariant of the DFS loop: `visited` mirrors `visitOrder`, the stack
holds distinct visited cells, everything visited is in bounds, every visited
cell no longer on the stack has all its in-bounds neighbours visited, and
every carved opening is between visited cells and mirrored on the other
side. -/
structure MazeInv (cols rows : ℕ) (s : MazeState) : Prop where
  vis_order : ∀ c, s.visited c = true ↔ c ∈ s.order
  stack_vis : ∀ c ∈ s.stack, s.visited c = true
  stack_nodup : s.stack.Nodup
  order_nodup : s.order.Nodup
  vis_bounds : ∀ c, s.visited c = true → inBounds cols rows c = true
  start_vis : s.visited ((0 : ℤ), (0 : ℤ)) = true
  closure : ∀ c, s.visited c = true → c ∉ s.stack →
    ∀ d, inBounds cols rows (move c d) = true → s.visited (move c d) = true
  opened_sym : ∀ c d, s.opened c d = true →
    s.visited c = true ∧ s.visited (move c d) = true ∧
    s.opened (move c d) (opposite d) = true

/-- Termination measure of the DFS loop: every iteration decreases it. -/
def mazeMeasure (cols rows : ℕ) (s : MazeState) : ℕ :=
  2 * (cols * rows - s.order.length) + s.stack.length

/-! ### Collision field
(`_resolve2DCollisions` in src/js/CharacterController.js and
`_resolveAABBCollisions` in src/js/Camera.js share this body verbatim.) -/

/-- An axis-aligned collider rectangle `{minX, maxX, minZ, maxZ}`. -/
structure Rect (α : Type) where
  minX : α
  maxX : α
  minZ : α
  maxZ : α

/-- The loop body of the push-out resolver for one rectangle: inflate by the
agent radius `r`; if `(x, z)` lies inside, move to the inflated edge of
minimum penetration depth, testing left, right, down, up in that order. -/
def resolveRectStep {α : Type} [LinearOrderedField α] (r : α) (p : α × α)
    (rect : Rect α) : α × α :=
  let exmin := rect.minX - r
  let exmax := rect.maxX + r
  let ezmin := rect.minZ - r
  let ezmax := rect.maxZ + r
  if exmin ≤ p.1 ∧ p.1 ≤ exmax ∧ ezmin ≤ p.2 ∧ p.2 ≤ ezmax then
    let pushLeft := |p.1 - exmin|
    let pushRight := |exmax - p.1|
    let pushDown := |p.2 - ezmin|
    let pushUp := |ezmax - p.2|
    let minPush := min (min pushLeft pushRight) (min pushDown pushUp)
    if minPush = pushLeft then (exmin, p.2)
    else if minPush = pushRight then (exmax, p.2)
    else if minPush = pushDown then (p.1, ezmin)
    else (p.1, ezmax)
  else p

/-- `for (const rect of this._colliders) { ... }`: one sweep over all
colliders, threading the corrected point through. -/
def resolve2DCollisions {α : Type} [LinearOrderedField α]
    (colliders : List (Rect α)) (r : α) (p : α × α) : α × α :=
  colliders.foldl (resolveRectStep r) p

/-- The `pushLeft` local of `resolveRectStep`. -/
def pushLeftDepth {α : Type} [LinearOrderedField α] (rect : Rect α) (r : α)
    (p : α × α) : α := |p.1 - (rect.minX - r)|

/-- The `pushRight` local of `resolveRectStep`. -/
def pushRightDepth {α : Type} [LinearOrderedField α] (rect : Rect α) (r : α)
    (p : α × α) : α := |rect.maxX + r - p.1|

/-- The `pushDown` local of `resolveRectStep`. -/
def pushDownDepth {α : Type} [LinearOrderedField α] (rect : Rect α) (r : α)
    (p : α × α) : α := |p.2 - (rect.minZ - r)|

/-- The `pushUp` local of `resolveRectStep`. -/
def pushUpDepth {α : Type} [LinearOrderedField α] (rect : Rect α) (r : α)
    (p : α × α) : α := |rect.maxZ + r - p.2|

/-- The `minPush` local of `resolveRectStep`. -/
def minPushDepth {α : Type} [LinearOrderedField α] (rect : Rect α) (r : α)
    (p : α × α) : α :=
  min (min (pushLeftDepth rect r p) (pushRightDepth rect r p))
    (min (pushDownDepth rect r p) (pushUpDepth rect r p))

/-- XZ-plane Euclidean length (`THREE.Vector3.length` with `y = 0`). -/
noncomputable def vlength (v : ℝ × ℝ) : ℝ := Real.sqrt (v.1 ^ 2 + v.2 ^ 2)

/-- `EnemyController._separateFromTarget` (src/js/Camera.js), with the two
radii `rA`/`rB` exposed as in the spec signature `separate(pos, other, rA, rB)`:
when closer than `rA + rB` (and above the `1e-6` degeneracy threshold), the
point is pushed back to exactly `rA + rB` from `other` along the
`pos - other` direction. -/
noncomputable def separate (pos other : ℝ × ℝ) (rA rB : ℝ) : ℝ × ℝ :=
  let minDist := rA + rB
  let delta := (pos.1 - other.1, pos.2 - other.2)
  let d := vlength delta
  if d < minDist ∧ d > 1 / 1000000 then
    (other.1 + delta.1 / d * minDist, other.2 + delta.2 / d * minDist)
  else pos

/-- `THREE.Vector3.normalize`: divide by the length, or by 1 when the
length is zero (`divideScalar(length || 1)`). -/
noncomputable def normalizeV (v : ℝ × ℝ) : ℝ × ℝ :=
  let L := vlength v
  if L = 0 then v else (v.1 / L, v.2 / L)

/-! ### Enemy behaviour state machine and damage
(second `EnemyController` in src/js/Camera.js) -/

/-- The FSM states `'idle' | 'chase' | 'attack'`. -/
inductive EState
| idle
| chase
| attack
deriving DecidableEq, Repr

/-- Constructor-time configuration of `EnemyController`.  `hasAttackAnim`
models whether `this._anims.attack` loaded, `hasHitCallback` whether
`params.onHitPlayer` was a function. -/
structure EnemyParams where
  radius : ℚ
  targetRadius : ℚ
  aggroRange : ℚ
  attackMargin : ℚ
  attackHysteresis : ℚ
  attackCooldown : ℚ
  minAttackHold : ℚ
  minChaseHold : ℚ
  attackDamage : ℚ
  attackDuration : ℚ
  hurtDuration : ℚ
  invulnDuration : ℚ
  hurtKnockback : ℝ
  hpMax : ℚ
  hasAttackAnim : Bool
  hasHitCallback : Bool
  colliders : List (Rect ℝ)

/-- `this._deaggroRange = this._aggroRange * 1.25`. -/
def deaggroRange (P : EnemyParams) : ℚ := P.aggroRange * (5 / 4)

/-- `this._attackEnterRange = this._radius + this._targetRadius + this._attackMargin`. -/
def attackEnterRange (P : EnemyParams) : ℚ :=
  P.radius + P.targetRadius + P.attackMargin

/-- `this._attackExitRange = attackEnterRange + this._attackHysteresis`. -/
def attackExitRange (P : EnemyParams) : ℚ :=
  attackEnterRange P + P.attackHysteresis

/-- The mutable fields of `EnemyController` that the state machine and the
damage path read or write.  Timer sentinels initialised to `-Infinity` in the
source (`_lastAttackEnd`, `_attackStartTime`, `_hurtEndTime`,
`_invulnEndTime`) live in `WithBot ℚ`, whose `⊥` behaves exactly like
JavaScript's `-Infinity` under the comparisons used.  The world position,
which the knockback square root flows through, lives in `ℝ × ℝ` (XZ plane,
`y` pinned to 0 throughout the controller). -/
structure EnemyState where
  st : EState
  stateHold : ℚ
  time : ℚ
  lastAttackEnd : WithBot ℚ
  attackPlaying : Bool
  attackStartTime : WithBot ℚ
  hp : ℚ
  hurtActive : Bool
  hurtEndTime : WithBot ℚ
  invulnEndTime : WithBot ℚ
  velocity : ℚ × ℚ
  position : ℝ × ℝ

/-- `_beginAttack`: enter attack, arm the hold and animation timers, and fire
`onHitPlayer(attackDamage)` when a callback is installed.  The second
component lists the damage callbacks fired during the tick. -/
def beginAttack (P : EnemyParams) (s : EnemyState) : EnemyState × List ℚ :=
  ({ s with st := EState.attack
            stateHold := P.minAttackHold
            attackPlaying := true
            attackStartTime := (s.time : WithBot ℚ) },
   if P.hasHitCallback then [P.attackDamage] else [])

/-- `_maybeChangeState(dist, canAttack)`.  `this._time - x >= y` on the
`WithBot` sentinels is expressed as `x + y ≤ this._time`, which agrees with
the JavaScript comparison both at finite values and at `-Infinity`. -/
def maybeChangeState (P : EnemyParams) (s : EnemyState) (dist : ℚ)
    (canAttack : Bool) : EnemyState × List ℚ :=
  if s.hurtActive then (s, [])
  else if 0 < s.stateHold then (s, [])
  else
    match s.st with
    | EState.idle =>
      if dist ≤ P.aggroRange then
        ({ s with st := EState.chase, stateHold := P.minChaseHold }, [])
      else (s, [])
    | EState.chase =>
      if deaggroRange P < dist then
        ({ s with st := EState.idle, stateHold := 1 / 5, velocity := (0, 0) }, [])
      else if canAttack && P.hasAttackAnim then beginAttack P s
      else (s, [])
    | EState.attack =>
      let finished :=
        decide (s.attackStartTime + (P.attackDuration : WithBot ℚ) ≤ (s.time : WithBot ℚ))
      let s1 :=
        if finished && s.attackPlaying then
          { s with attackPlaying := false, lastAttackEnd := (s.time : WithBot ℚ) }
        else s
      if finished then
        if attackExitRange P < dist then
          ({ s1 with st := EState.chase, stateHold := P.minChaseHold }, [])
        else
          let cooldownReady :=
            decide (s1.lastAttackEnd + (P.attackCooldown : WithBot ℚ) ≤ (s1.time : WithBot ℚ))
          if cooldownReady && P.hasAttackAnim then beginAttack P s1
          else if deaggroRange P < dist then
            ({ s1 with st := EState.chase, stateHold := P.minChaseHold }, [])
          else (s1, [])
      else (s1, [])

/-- The state-machine portion of `EnemyController.Update(dt)`: advance the
clock, run down the hold timer, expire the hurt window, compute the attack
gate from the supplied XZ distance to the target, and apply
`_maybeChangeState`.  Movement integration consumes the resulting state and
never feeds back into these fields within the tick. -/
def tick (P : EnemyParams) (s : EnemyState) (dist : ℚ) (dt : ℚ) :
    EnemyState × List ℚ :=
  let time := s.time + dt
  let stateHold := if 0 < s.stateHold then s.stateHold - dt else s.stateHold
  let hurtActive :=
    if s.hurtActive && decide (s.hurtEndTime ≤ (time : WithBot ℚ)) then false
    else s.hurtActive
  let s1 := { s with time := time, stateHold := stateHold, hurtActive := hurtActive }
  let canAttack :=
    decide (dist ≤ attackEnterRange P) &&
    decide (s1.lastAttackEnd + (P.attackCooldown : WithBot ℚ) ≤ (time : WithBot ℚ))
  maybeChangeState P s1 dist canAttack

/-- Iterate `tick` over a list of per-frame `(dist, dt)` observations. -/
def ticks (P : EnemyParams) (s : EnemyState) : List (ℚ × ℚ) → EnemyState
  | [] => s
  | (dist, dt) :: rest => ticks P (tick P s dist dt).1 rest

/-- Truncation toward zero of a rational (the integer part JavaScript's
`ToInt32` starts from). -/
def ratTrunc (q : ℚ) : ℤ := if 0 ≤ q then ⌊q⌋ else ⌈q⌉

/-- JavaScript's `n | 0` (ToInt32): truncate, wrap into 32 bits, reinterpret
as signed. -/
def toInt32 (q : ℚ) : ℤ :=
  ((ratTrunc q + 2 ^ 31) % 2 ^ 32) - 2 ^ 31

/-- `EnemyController.damage(n, hitDir)`.  `targetPos` stands for the value
the `getTargetPosition` callback returns during the call.  The hurt trigger
sets the same timers in both the with-clip and clipless branches of
`_triggerHurt`, so they are not distinguished here. -/
noncomputable def enemyDamage (P : EnemyParams) (s : EnemyState) (n : ℚ)
    (hitDir : Option (ℝ × ℝ)) (targetPos : ℝ × ℝ) : EnemyState :=
  if (s.time : WithBot ℚ) < s.invulnEndTime then s
  else
    let amount := max 0 (toInt32 n)
    if amount ≤ 0 then s
    else
      let s1 :=
        { s with hp := max 0 (s.hp - (amount : ℚ))
                 attackPlaying := false
                 lastAttackEnd := (s.time : WithBot ℚ)
                 hurtActive := true
                 hurtEndTime := ((s.time + P.hurtDuration : ℚ) : WithBot ℚ)
                 invulnEndTime := ((s.time + P.invulnDuration : ℚ) : WithBot ℚ) }
      if 0 < P.hurtKnockback then
        let dir :=
          match hitDir with
          | some hd => normalizeV hd
          | none =>
            let toEnemy := (s.position.1 - targetPos.1, s.position.2 - targetPos.2)
            if 1 / 1000000 < toEnemy.1 ^ 2 + toEnemy.2 ^ 2 then normalizeV toEnemy
            else (0, 0)
        if 0 < dir.1 ^ 2 + dir.2 ^ 2 then
          let next := (s1.position.1 + dir.1 * P.hurtKnockback,
                       s1.position.2 + dir.2 * P.hurtKnockback)
          { s1 with position := resolve2DCollisions P.colliders (P.radius : ℝ) next }
        else s1
      else s1

/-- A concrete parameter vector (the constructor defaults of
`EnemyController`, with attack animation and hit callback installed),
used to instantiate the theorems below at concrete inputs. -/
noncomputable def sampleParams : EnemyParams :=
  { radius := 8, targetRadius := 6, aggroRange := 450, attackMargin := 1,
    attackHysteresis := 20, attackCooldown := 4 / 5, minAttackHold := 1 / 4,
    minChaseHold := 1 / 5, attackDamage := 10, attackDuration := 3 / 5,
    hurtDuration := 1 / 2, invulnDuration := 0, hurtKnockback := 0,
    hpMax := 60, hasAttackAnim := true, hasHitCallback := true, colliders := [] }

/-- A concrete enemy state in `chase` with expired hold timers. -/
noncomputable def sampleChase : EnemyState :=
  { st := EState.chase, stateHold := 0, time := 10,
    lastAttackEnd := ⊥, attackPlaying := false, attackStartTime := ⊥,
    hp := 60, hurtActive := false, hurtEndTime := ⊥, invulnEndTime := ⊥,
    velocity := (0, 0), position := (0, 0) }

/-- A concrete enemy state inside an invulnerability window. -/
noncomputable def sampleInvuln : EnemyState :=
  { sampleChase with time := 0, invulnEndTime := ((1 : ℚ) : WithBot ℚ) }

/-! ### Player controller damage
(`BasicCharacterController` in src/js/CharacterController.js) -/

/-- The player-side fields read or written by `damage`/`_triggerHurt`. -/
structure PlayerState where
  hp : ℚ
  hpMax : ℚ
  hurtActive : Bool
  hurtUntilMS : ℚ
  hurtDuration : ℚ

/-- `BasicCharacterController.damage(n)`.  `nowMS` stands for
`performance.now()`; `hasHurtAnim` for `this._animations.hurt?.action &&
this._mixer` being available.  The second component records the
`onHpChange(hp, hpMax)` callbacks fired. -/
def playerDamage (s : PlayerState) (n : ℚ) (nowMS : ℚ) (hasHurtAnim : Bool) :
    PlayerState × List (ℚ × ℚ) :=
  let amount := max 0 (toInt32 n)
  if amount ≤ 0 then (s, [])
  else
    let hp := max 0 (s.hp - (amount : ℚ))
    let s1 := { s with hp := hp }
    let s2 :=
      if hasHurtAnim then
        { s1 with hurtActive := true, hurtUntilMS := nowMS + s.hurtDuration * 1000 }
      else s1
    (s2, [(hp, s.hpMax)])

/-! ### Helper lemmas: directions and the shuffle -/

theorem opposite_opposite (d : Dir) : opposite (opposite d) = d := by
  cases d <;> rfl

theorem move_opposite (c : Cell) (d : Dir) : move (move c d) (opposite d) = c := by
  cases d <;> simp only [move, opposite, di, dj] <;>
    exact Prod.ext (by ring) (by ring)

theorem mem_swap4 (a b c : ℕ) (ha : a < 4) (hb : b < 3) (hc : c < 2) (d : Dir) :
    d ∈ swapIdx (swapIdx (swapIdx dirKeys 3 a) 2 b) 1 c := by
  interval_cases a <;> interval_cases b <;> interval_cases c <;> cases d <;> decide

theorem mem_shuffle_dirKeys (js : ℕ → ℕ) (d : Dir) : d ∈ shuffle dirKeys js := by
  have h :
      shuffle dirKeys js =
        swapIdx (swapIdx (swapIdx dirKeys 3 (js 3 % 4)) 2 (js 2 % 3)) 1 (js 1 % 2) := rfl
  rw [h]
  exact mem_swap4 _ _ _ (Nat.mod_lt _ (by norm_num)) (Nat.mod_lt _ (by norm_num))
    (Nat.mod_lt _ (by norm_num)) d

/-! ### Helper lemmas: the integer square root and the grid size -/

theorem floorSqrtAux_le (n : ℕ) : ∀ k, floorSqrtAux n k ≤ k := by
  intro k
  induction k with
  | zero => simp [floorSqrtAux]
  | succ k ih =>
    simp only [floorSqrtAux]
    split
    · exact le_rfl
    · exact le_trans ih (Nat.le_succ k)

theorem floorSqrtAux_sq_le (n : ℕ) : ∀ k, floorSqrtAux n k * floorSqrtAux n k ≤ n := by
  intro k
  induction k with
  | zero => simp [floorSqrtAux]
  | succ k ih =>
    simp only [floorSqrtAux]
    split
    · assumption
    · exact ih

theorem le_floorSqrtAux (n : ℕ) : ∀ k j, j ≤ k → j * j ≤ n → j ≤ floorSqrtAux n k := by
  intro k
  induction k with
  | zero =>
    intro j hj _
    simp only [floorSqrtAux]
    omega
  | succ k ih =>
    intro j hj hjn
    simp only [floorSqrtAux]
    split
    · exact hj
    · next h =>
      rcases Nat.eq_or_lt_of_le hj with rfl | h2
      · exact absurd hjn h
      · exact ih j (by omega) hjn

theorem floorSqrt_eq_sqrt (n : ℕ) : floorSqrt n = Nat.sqrt n := by
  refine le_antisymm ?_ ?_
  · exact Nat.le_sqrt.mpr (floorSqrtAux_sq_le n n)
  · exact le_floorSqrtAux n n (Nat.sqrt n) (Nat.sqrt_le_self n) (Nat.sqrt_le n)

theorem mazeRows_pos (T : ℕ) : 1 ≤ mazeRows T := le_max_right _ _

theorem le_mazeGrid (T : ℕ) : T ≤ mazeCols T * mazeRows T := by
  have hr : 1 ≤ mazeRows T := mazeRows_pos T
  have h1 := Nat.div_add_mod (T + mazeRows T - 1) (mazeRows T)
  have h2 : (T + mazeRows T - 1) % mazeRows T < mazeRows T :=
    Nat.mod_lt _ (by omega)
  unfold mazeCols
  rw [Nat.mul_comm]
  set p := mazeRows T * ((T + mazeRows T - 1) / mazeRows T) with hp
  omega

theorem mazeCols_pos (T : ℕ) (hT : 1 ≤ T) : 1 ≤ mazeCols T := by
  rcases Nat.eq_zero_or_pos (mazeCols T) with h | h
  · have h2 := le_mazeGrid T
    rw [h] at h2
    simp at h2
    omega
  · exact h

/-! ### Helper lemmas: the bounds finset -/

theorem mem_boundsFinset (cols rows : ℕ) (c : Cell) :
    c ∈ boundsFinset cols rows ↔ inBounds cols rows c = true := by
  constructor
  · intro h
    simp only [boundsFinset, Finset.mem_image, Finset.mem_product,
      Finset.mem_range] at h
    obtain ⟨p, ⟨hp1, hp2⟩, hpc⟩ := h
    subst hpc
    simp only [inBounds, Bool.and_eq_true, decide_eq_true_eq]
    refine ⟨⟨⟨Int.ofNat_nonneg _, ?_⟩, Int.ofNat_nonneg _⟩, ?_⟩ <;> exact_mod_cast ‹_›
  · intro h
    simp only [inBounds, Bool.and_eq_true, decide_eq_true_eq] at h
    obtain ⟨⟨⟨h1, h2⟩, h3⟩, h4⟩ := h
    simp only [boundsFinset, Finset.mem_image, Finset.mem_product, Finset.mem_range]
    refine ⟨(c.1.toNat, c.2.toNat), ⟨?_, ?_⟩, ?_⟩
    · omega
    · omega
    · have e1 : ((c.1.toNat : ℤ)) = c.1 := Int.toNat_of_nonneg h1
      have e2 : ((c.2.toNat : ℤ)) = c.2 := Int.toNat_of_nonneg h3
      exact Prod.ext e1 e2

theorem card_boundsFinset (cols rows : ℕ) :
    (boundsFinset cols rows).card = cols * rows := by
  unfold boundsFinset
  rw [Finset.card_image_of_injective]
  · simp [Finset.card_product]
  · intro p q h
    have h1 : ((p.1 : ℤ)) = (q.1 : ℤ) := congrArg Prod.fst h
    have h2 : ((p.2 : ℤ)) = (q.2 : ℤ) := congrArg Prod.snd h
    exact Prod.ext (by exact_mod_cast h1) (by exact_mod_cast h2)

theorem inBounds_coe (cols rows i j : ℕ) (hi : i < cols) (hj : j < rows) :
    inBounds cols rows ((i : ℤ), (j : ℤ)) = true := by
  simp only [inBounds, Bool.and_eq_true, decide_eq_true_eq]
  refine ⟨⟨⟨Int.ofNat_nonneg _, ?_⟩, Int.ofNat_nonneg _⟩, ?_⟩ <;> exact_mod_cast ‹_›

theorem nodup_bounded_length (cols rows : ℕ) (l : List Cell) (hnd : l.Nodup)
    (hb : ∀ c ∈ l, inBounds cols rows c = true) : l.length ≤ cols * rows := by
  have hsub : l.toFinset ⊆ boundsFinset cols rows := by
    intro c hc
    exact (mem_boundsFinset _ _ c).mpr (hb c (List.mem_toFinset.mp hc))
  calc l.length = l.toFinset.card := (List.toFinset_card_of_nodup hnd).symm
    _ ≤ (boundsFinset cols rows).card := Finset.card_le_card hsub
    _ = cols * rows := card_boundsFinset _ _

/-! ### Helper lemmas: the DFS loop -/

theorem findAdvance_some (cols rows : ℕ) (visited : Cell → Bool) (top : Cell) :
    ∀ (l : List Dir) (d : Dir), findAdvance cols rows visited top l = some d →
      inBounds cols rows (move top d) = true ∧ visited (move top d) = false := by
  intro l
  induction l with
  | nil => intro d h; simp [findAdvance] at h
  | cons d0 ds ih =>
    intro d h
    simp only [findAdvance] at h
    split at h
    · next hcond =>
      cases h
      simp only [Bool.and_eq_true, Bool.not_eq_true'] at hcond
      exact hcond
    · exact ih d h

theorem findAdvance_none (cols rows : ℕ) (visited : Cell → Bool) (top : Cell) :
    ∀ l : List Dir, findAdvance cols rows visited top l = none →
      ∀ d ∈ l, inBounds cols rows (move top d) = true →
        visited (move top d) = true := by
  intro l
  induction l with
  | nil => intro _ d hd; simp at hd
  | cons d0 ds ih =>
    intro h d hd hb
    simp only [findAdvance] at h
    split at h
    · exact absurd h (by simp)
    · next hcond =>
      rcases List.mem_cons.mp hd with rfl | hd2
      · simp only [Bool.and_eq_true, Bool.not_eq_true'] at hcond
        rcases Bool.eq_false_or_eq_true (visited (move top d)) with h1 | h1
        · exact h1
        · exact absurd ⟨hb, h1⟩ hcond
      · exact ih h d hd2 hb

theorem startState_inv (cols rows : ℕ) (hc : 1 ≤ cols) (hr : 1 ≤ rows) :
    MazeInv cols rows startState := by
  refine ⟨?_, ?_, ?_, ?_, ?_, ?_, ?_, ?_⟩
  · intro c; simp [startState]
  · intro c hc2; simp only [startState, List.mem_singleton] at hc2; simp [startState, hc2]
  · simp [startState]
  · simp [startState]
  · intro c hc2
    simp only [startState, decide_eq_true_eq] at hc2
    subst hc2
    exact inBounds_coe cols rows 0 0 (by omega) (by omega)
  · simp [startState]
  · intro c hc2 hc3
    simp only [startState, decide_eq_true_eq] at hc2
    subst hc2
    exact absurd (by simp [startState]) hc3
  · intro c d h; simp [startState] at h

theorem dfsStep_inv (cols rows : ℕ) (opts : List Dir)
    (hopts : ∀ d : Dir, d ∈ opts) (s : MazeState) (hs : MazeInv cols rows s)
    (top : Cell) (rest : List Cell) (hstack : s.stack = top :: rest) :
    MazeInv cols rows (dfsStep cols rows opts s) ∧
    mazeMeasure cols rows (dfsStep cols rows opts s) < mazeMeasure cols rows s ∧
    ∀ c ∈ s.order, c ∈ (dfsStep cols rows opts s).order := by
  have htopvis : s.visited top = true :=
    hs.stack_vis top (by rw [hstack]; exact List.mem_cons_self _ _)
  cases hf : findAdvance cols rows s.visited top opts with
  | none =>
    have hstep : dfsStep cols rows opts s =
        { visited := s.visited, stack := rest, order := s.order, opened := s.opened } := by
      simp [dfsStep, hstack, hf]
    rw [hstep]
    refine ⟨⟨?_, ?_, ?_, ?_, ?_, ?_, ?_, ?_⟩, ?_, ?_⟩
    · exact hs.vis_order
    · intro c hc
      exact hs.stack_vis c (by rw [hstack]; exact List.mem_cons_of_mem _ hc)
    · have h1 := hs.stack_nodup; rw [hstack] at h1; exact h1.of_cons
    · exact hs.order_nodup
    · exact hs.vis_bounds
    · exact hs.start_vis
    · intro c hc hcstack d hb
      by_cases hct : c = top
      · subst hct
        exact findAdvance_none cols rows s.visited c opts hf d (hopts d) hb
      · refine hs.closure c hc ?_ d hb
        rw [hstack]
        intro hmem
        rcases List.mem_cons.mp hmem with h | h
        · exact hct h
        · exact hcstack h
    · exact hs.opened_sym
    · unfold mazeMeasure
      rw [hstack]
      simp
    · intro c hc; exact hc
  | some d =>
    obtain ⟨hnb, hnv⟩ := findAdvance_some cols rows s.visited top opts d hf
    have hnvis : ¬ s.visited (move top d) = true := by rw [hnv]; simp
    have hnorder : move top d ∉ s.order := fun h => hnvis ((hs.vis_order _).mpr h)
    have hnstack : move top d ∉ s.stack := fun h => hnvis (hs.stack_vis _ h)
    have hstep : dfsStep cols rows opts s =
        { visited := fun c => if c = move top d then true else s.visited c
          stack := move top d :: top :: rest
          order := s.order ++ [move top d]
          opened := carve (carve s.opened top d) (move top d) (opposite d) } := by
      simp [dfsStep, hstack, hf]
    have hlen : s.order.length < cols * rows := by
      have hnd : (move top d :: s.order).Nodup :=
        List.nodup_cons.mpr ⟨hnorder, hs.order_nodup⟩
      have hbd : ∀ c ∈ move top d :: s.order, inBounds cols rows c = true := by
        intro c hc
        rcases List.mem_cons.mp hc with rfl | hc2
        · exact hnb
        · exact hs.vis_bounds c ((hs.vis_order c).mpr hc2)
      have h1 := nodup_bounded_length cols rows _ hnd hbd
      simp only [List.length_cons] at h1
      omega
    rw [hstep]
    refine ⟨⟨?_, ?_, ?_, ?_, ?_, ?_, ?_, ?_⟩, ?_, ?_⟩
    · intro c
      dsimp only
      by_cases hcn : c = move top d
      · subst hcn; simp
      · rw [if_neg hcn]
        simp only [List.mem_append, List.mem_singleton, hcn, or_false]
        exact hs.vis_order c
    · intro c hc
      dsimp only at hc ⊢
      rcases List.mem_cons.mp hc with rfl | hc2
      · rw [if_pos rfl]
      · have h1 : s.visited c = true := hs.stack_vis c (by rw [hstack]; exact hc2)
        by_cases hcn : c = move top d
        · rw [if_pos hcn]
        · rw [if_neg hcn]; exact h1
    · dsimp only
      have h1 : (top :: rest).Nodup := by
        have h2 := hs.stack_nodup; rwa [hstack] at h2
      refine List.nodup_cons.mpr ⟨?_, h1⟩
      rw [← hstack]; exact hnstack
    · dsimp only
      refine List.Nodup.append hs.order_nodup (by simp) ?_
      intro a ha ha2
      rw [List.mem_singleton] at ha2
      subst ha2
      exact hnorder ha
    · intro c hc
      dsimp only at hc
      by_cases hcn : c = move top d
      · subst hcn; exact hnb
      · rw [if_neg hcn] at hc; exact hs.vis_bounds c hc
    · dsimp only
      by_cases h0 : ((0 : ℤ), (0 : ℤ)) = move top d
      · rw [if_pos h0]
      · rw [if_neg h0]; exact hs.start_vis
    · intro c hc hcstack d2 hb2
      dsimp only at hc hcstack ⊢
      have hcn : c ≠ move top d := fun h => hcstack (h ▸ List.mem_cons_self _ _)
      have hcs : c ∉ s.stack := by
        rw [hstack]
        intro h
        exact hcstack (List.mem_cons_of_mem _ h)
      rw [if_neg hcn] at hc
      have h1 := hs.closure c hc hcs d2 hb2
      by_cases hmn : move c d2 = move top d
      · rw [if_pos hmn]
      · rw [if_neg hmn]; exact h1
    · intro c d2 hop
      dsimp only at hop ⊢
      simp only [carve] at hop
      by_cases h1 : c = move top d ∧ d2 = opposite d
      · obtain ⟨rfl, rfl⟩ := h1
        refine ⟨?_, ?_, ?_⟩
        · rw [if_pos rfl]
        · rw [move_opposite]
          by_cases ht : top = move top d
          · rw [if_pos ht]
          · rw [if_neg ht]; exact htopvis
        · rw [move_opposite, opposite_opposite]
          simp only [carve]
          by_cases hA : top = move top d ∧ d = opposite d
          · rw [if_pos hA]
          · rw [if_neg hA]; simp
      · rw [if_neg h1] at hop
        by_cases h2 : c = top ∧ d2 = d
        · obtain ⟨h2c, h2d⟩ := h2
          refine ⟨?_, ?_, ?_⟩
          · by_cases hcn : c = move top d
            · rw [if_pos hcn]
            · rw [if_neg hcn, h2c]; exact htopvis
          · rw [h2c, h2d, if_pos rfl]
          · simp only [carve]
            rw [h2c, h2d]
            rw [if_pos (⟨rfl, rfl⟩ :
              move top d = move top d ∧ opposite d = opposite d)]
        · rw [if_neg h2] at hop
          obtain ⟨hv1, hv2, hv3⟩ := hs.opened_sym c d2 hop
          refine ⟨?_, ?_, ?_⟩
          · by_cases hcn : c = move top d
            · rw [if_pos hcn]
            · rw [if_neg hcn]; exact hv1
          · by_cases hmn : move c d2 = move top d
            · rw [if_pos hmn]
            · rw [if_neg hmn]; exact hv2
          · simp only [carve]
            split_ifs with hA hB
            · rfl
            · rfl
            · exact hv3
    · unfold mazeMeasure
      rw [hstack]
      dsimp only
      simp only [List.length_append, List.length_cons]
      simp
      omega
    · intro c hc
      dsimp only
      exact List.mem_append_left _ hc

theorem dfsRun_inv (cols rows : ℕ) (rng : ℕ → ℕ → ℕ) :
    ∀ fuel step s, MazeInv cols rows s → mazeMeasure cols rows s ≤ fuel →
      MazeInv cols rows (dfsRun cols rows rng fuel step s) ∧
      (dfsRun cols rows rng fuel step s).stack = [] ∧
      ∀ c ∈ s.order, c ∈ (dfsRun cols rows rng fuel step s).order := by
  intro fuel
  induction fuel with
  | zero =>
    intro step s hs hm
    have hlen : s.stack.length = 0 := by
      unfold mazeMeasure at hm; omega
    have hempty : s.stack = [] := List.length_eq_zero.mp hlen
    simp only [dfsRun]
    exact ⟨hs, hempty, fun c hc => hc⟩
  | succ fuel ih =>
    intro step s hs hm
    cases hstack : s.stack with
    | nil =>
      simp only [dfsRun, hstack]
      exact ⟨hs, trivial, fun c hc => hc⟩
    | cons top rest =>
      obtain ⟨hinv2, hmeas, hord⟩ :=
        dfsStep_inv cols rows (shuffle dirKeys (rng step)) (mem_shuffle_dirKeys _)
          s hs top rest hstack
      have hrun : dfsRun cols rows rng (fuel + 1) step s =
          dfsRun cols rows rng fuel (step + 1)
            (dfsStep cols rows (shuffle dirKeys (rng step)) s) := by
        simp only [dfsRun, hstack]
      rw [hrun]
      obtain ⟨h1, h2, h3⟩ := ih (step + 1) _ hinv2 (by omega)
      exact ⟨h1, h2, fun c hc => h3 c (hord c hc)⟩

theorem visited_row (cols rows : ℕ) (s : MazeState) (hs : MazeInv cols rows s)
    (hempty : s.stack = []) (hr : 0 < rows) :
    ∀ i : ℕ, i < cols → s.visited ((i : ℤ), (0 : ℤ)) = true := by
  have hcl : ∀ c, s.visited c = true → ∀ d, inBounds cols rows (move c d) = true →
      s.visited (move c d) = true := by
    intro c hc d hb
    exact hs.closure c hc (by rw [hempty]; exact List.not_mem_nil c) d hb
  intro i
  induction i with
  | zero => intro _; exact hs.start_vis
  | succ i ihr =>
    intro hi
    have h1 : s.visited ((i : ℤ), (0 : ℤ)) = true := ihr (by omega)
    have h2 : move ((i : ℤ), (0 : ℤ)) Dir.E = (((i + 1 : ℕ) : ℤ), (0 : ℤ)) := by
      simp only [move, di, dj]
      push_cast
      exact Prod.ext (by ring) (by ring)
    have h3 := hcl _ h1 Dir.E
      (by rw [h2]; exact inBounds_coe cols rows (i + 1) 0 hi hr)
    rwa [h2] at h3

theorem visited_all (cols rows : ℕ) (s : MazeState) (hs : MazeInv cols rows s)
    (hempty : s.stack = []) :
    ∀ i j : ℕ, i < cols → j < rows → s.visited ((i : ℤ), (j : ℤ)) = true := by
  have hcl : ∀ c, s.visited c = true → ∀ d, inBounds cols rows (move c d) = true →
      s.visited (move c d) = true := by
    intro c hc d hb
    exact hs.closure c hc (by rw [hempty]; exact List.not_mem_nil c) d hb
  intro i j hi
  induction j with
  | zero =>
    intro hj
    exact visited_row cols rows s hs hempty hj i hi
  | succ j ihj =>
    intro hj
    have h1 : s.visited ((i : ℤ), (j : ℤ)) = true := ihj (by omega)
    have h2 : move ((i : ℤ), (j : ℤ)) Dir.N = ((i : ℤ), ((j + 1 : ℕ) : ℤ)) := by
      simp only [move, di, dj]
      push_cast
      exact Prod.ext (by ring) (by ring)
    have h3 := hcl _ h1 Dir.N
      (by rw [h2]; exact inBounds_coe cols rows i (j + 1) hi hj)
    rwa [h2] at h3

theorem mazeGen_spec (T : ℕ) (rng : ℕ → ℕ → ℕ) (hT : 1 ≤ T) :
    MazeInv (mazeCols T) (mazeRows T) (mazeGen T rng) ∧
    (mazeGen T rng).stack = [] ∧
    (mazeGen T rng).order.length = mazeCols T * mazeRows T := by
  have hc := mazeCols_pos T hT
  have hr := mazeRows_pos T
  have hG : 1 ≤ mazeCols T * mazeRows T := Nat.mul_pos hc hr
  have hinv0 := startState_inv (mazeCols T) (mazeRows T) hc hr
  have hm0 : mazeMeasure (mazeCols T) (mazeRows T) startState ≤
      2 * (mazeCols T * mazeRows T) := by
    unfold mazeMeasure startState
    simp only [List.length_singleton]
    omega
  obtain ⟨hinv, hempty, _⟩ :=
    dfsRun_inv (mazeCols T) (mazeRows T) rng (2 * (mazeCols T * mazeRows T)) 0
      startState hinv0 hm0
  refine ⟨hinv, hempty, ?_⟩
  have hmem : ∀ c : Cell,
      c ∈ (mazeGen T rng).order ↔ c ∈ boundsFinset (mazeCols T) (mazeRows T) := by
    intro c
    constructor
    · intro h
      exact (mem_boundsFinset _ _ c).mpr (hinv.vis_bounds c ((hinv.vis_order c).mpr h))
    · intro h
      rw [mem_boundsFinset] at h
      simp only [inBounds, Bool.and_eq_true, decide_eq_true_eq] at h
      obtain ⟨⟨⟨h1, h2⟩, h3⟩, h4⟩ := h
      have hcast : c = ((c.1.toNat : ℤ), (c.2.toNat : ℤ)) := by
        exact Prod.ext (by omega) (by omega)
      have hv := visited_all (mazeCols T) (mazeRows T) (mazeGen T rng) hinv hempty
        c.1.toNat c.2.toNat (by omega) (by omega)
      rw [← hcast] at hv
      exact (hinv.vis_order c).mp hv
  have heq : (mazeGen T rng).order.toFinset = boundsFinset (mazeCols T) (mazeRows T) := by
    apply Finset.ext
    intro c
    rw [List.mem_toFinset]
    exact hmem c
  calc (mazeGen T rng).order.length
      = (mazeGen T rng).order.toFinset.card :=
        (List.toFinset_card_of_nodup hinv.order_nodup).symm
    _ = (boundsFinset (mazeCols T) (mazeRows T)).card := by rw [heq]
    _ = mazeCols T * mazeRows T := card_boundsFinset _ _

/-! ### Claim C1 -/

/-- C1: for every accepted `targetRooms ≥ 1` and every stream of random
draws, generation builds exactly `min(targetRooms, totalVisitedCells)` rooms
with pairwise-distinct `(i, j)` coordinates; the randomized DFS empties its
stack only after visiting all `rows * cols` grid cells, and since the grid
holds at least `targetRooms` cells the number of built rooms is exactly
`targetRooms`. -/
theorem c1_generate_builds_min_rooms (T : ℕ) (rng : ℕ → ℕ → ℕ) (hT : 1 ≤ T) :
    (builtCells T rng).length = min T (mazeGen T rng).order.length ∧
    (mazeGen T rng).stack = [] ∧
    (mazeGen T rng).order.length = mazeCols T * mazeRows T ∧
    (builtCells T rng).Nodup ∧
    (builtCells T rng).length = T := by
  obtain ⟨hinv, hempty, hlen⟩ := mazeGen_spec T rng hT
  have h1 : (builtCells T rng).length = min T (mazeGen T rng).order.length := by
    unfold builtCells
    exact List.length_take _ _
  have hn : (builtCells T rng).Nodup :=
    hinv.order_nodup.sublist (List.take_sublist _ _)
  refine ⟨h1, hempty, hlen, hn, ?_⟩
  rw [h1, hlen]
  exact min_eq_left (le_mazeGrid T)

/-- Witness for C1: `targetRooms = 5` under the all-zero draw stream. -/
theorem c1_witness :
    (builtCells 5 (fun _ _ => 0)).length =
      min 5 (mazeGen 5 (fun _ _ => 0)).order.length ∧
    (mazeGen 5 (fun _ _ => 0)).stack = [] ∧
    (mazeGen 5 (fun _ _ => 0)).order.length = mazeCols 5 * mazeRows 5 ∧
    (builtCells 5 (fun _ _ => 0)).Nodup ∧
    (builtCells 5 (fun _ _ => 0)).length = 5 :=
  c1_generate_builds_min_rooms 5 (fun _ _ => 0) (by norm_num)

/-! ### Claim C2 -/

/-- C2: for every generated level and every pair of built rooms `A` and
`B = move A d`, the restricted opening of `A` toward `B` holds exactly when
the restricted opening of `B` back toward `A` holds: passages are carved on
both cells and the restriction to built rooms preserves the symmetry. -/
theorem c2_openings_symmetric (T : ℕ) (rng : ℕ → ℕ → ℕ) (hT : 1 ≤ T)
    (A : Cell) (d : Dir) (hA : A ∈ builtCells T rng)
    (hB : move A d ∈ builtCells T rng) :
    finalOpen T rng A d = finalOpen T rng (move A d) (opposite d) := by
  obtain ⟨hinv, _, _⟩ := mazeGen_spec T rng hT
  have hmv : move (move A d) (opposite d) = A := move_opposite A d
  have hopiff : (mazeGen T rng).opened A d =
      (mazeGen T rng).opened (move A d) (opposite d) := by
    rcases Bool.eq_false_or_eq_true ((mazeGen T rng).opened A d) with h | h
    · rw [h, (hinv.opened_sym A d h).2.2]
    · rcases Bool.eq_false_or_eq_true
        ((mazeGen T rng).opened (move A d) (opposite d)) with h2 | h2
      · have h3 := (hinv.opened_sym (move A d) (opposite d) h2).2.2
        rw [hmv, opposite_opposite] at h3
        rw [h3] at h
        cases h
      · rw [h, h2]
  unfold finalOpen
  rw [hmv, hopiff]
  rcases Bool.eq_false_or_eq_true ((builtCells T rng).contains A) with ha | ha <;>
    rcases Bool.eq_false_or_eq_true ((builtCells T rng).contains (move A d)) with
      hb | hb <;>
    rw [ha, hb] <;> simp

/-- Witness for C2: the two horizontally adjacent built rooms `(0,0)` and
`(1,0)` of the 2x2 level generated by the all-zero draw stream. -/
theorem c2_witness :
    ((0, 0) : Cell) ∈ builtCells 4 (fun _ _ => 0) ∧
    move ((0, 0) : Cell) Dir.E ∈ builtCells 4 (fun _ _ => 0) ∧
    finalOpen 4 (fun _ _ => 0) ((0, 0) : Cell) Dir.E =
      finalOpen 4 (fun _ _ => 0) (move ((0, 0) : Cell) Dir.E) (opposite Dir.E) :=
  ⟨by decide, by decide,
    c2_openings_symmetric 4 (fun _ _ => 0) (by norm_num) ((0, 0) : Cell) Dir.E
      (by decide) (by decide)⟩

/-! ### Claim C3 -/

/-- C3: against a single collider rectangle, when the point lies inside the
rectangle inflated by the radius, the push-out step picks an edge whose
penetration depth equals the minimum of the four depths, moves the point onto
that edge (changing only that axis, by exactly the minimum depth), and the
resulting point has zero penetration past the chosen edge. -/
theorem c3_pushout_min_edge {α : Type} [LinearOrderedField α] (rect : Rect α)
    (r : α) (p : α × α)
    (h : rect.minX - r ≤ p.1 ∧ p.1 ≤ rect.maxX + r ∧
         rect.minZ - r ≤ p.2 ∧ p.2 ≤ rect.maxZ + r) :
    ((resolveRectStep r p rect = (rect.minX - r, p.2) ∧
      pushLeftDepth rect r p = minPushDepth rect r p ∧
      |(resolveRectStep r p rect).1 - (rect.minX - r)| = 0) ∨
     (resolveRectStep r p rect = (rect.maxX + r, p.2) ∧
      pushRightDepth rect r p = minPushDepth rect r p ∧
      |rect.maxX + r - (resolveRectStep r p rect).1| = 0) ∨
     (resolveRectStep r p rect = (p.1, rect.minZ - r) ∧
      pushDownDepth rect r p = minPushDepth rect r p ∧
      |(resolveRectStep r p rect).2 - (rect.minZ - r)| = 0) ∨
     (resolveRectStep r p rect = (p.1, rect.maxZ + r) ∧
      pushUpDepth rect r p = minPushDepth rect r p ∧
      |rect.maxZ + r - (resolveRectStep r p rect).2| = 0)) ∧
    |(resolveRectStep r p rect).1 - p.1| + |(resolveRectStep r p rect).2 - p.2| =
      minPushDepth rect r p := by
  simp only [resolveRectStep, pushLeftDepth, pushRightDepth, pushDownDepth,
    pushUpDepth, minPushDepth]
  rw [if_pos h]
  set a := |p.1 - (rect.minX - r)| with ha
  set b := |rect.maxX + r - p.1| with hb
  set cD := |p.2 - (rect.minZ - r)| with hc
  set e := |rect.maxZ + r - p.2| with he
  split_ifs with hL hR hD
  · refine ⟨Or.inl ⟨rfl, hL.symm, by simp⟩, ?_⟩
    dsimp only
    rw [sub_self, abs_zero, add_zero, abs_sub_comm]
    exact hL.symm
  · refine ⟨Or.inr (Or.inl ⟨rfl, hR.symm, by simp⟩), ?_⟩
    dsimp only
    rw [sub_self, abs_zero, add_zero]
    exact hR.symm
  · refine ⟨Or.inr (Or.inr (Or.inl ⟨rfl, hD.symm, by simp⟩)), ?_⟩
    dsimp only
    rw [sub_self, abs_zero, zero_add, abs_sub_comm]
    exact hD.symm
  · have hU : min (min a b) (min cD e) = e := by
      rcases min_choice (min a b) (min cD e) with h5 | h5
      · rcases min_choice a b with h6 | h6
        · exact absurd (h5.trans h6) hL
        · exact absurd (h5.trans h6) hR
      · rcases min_choice cD e with h6 | h6
        · exact absurd (h5.trans h6) hD
        · exact h5.trans h6
    refine ⟨Or.inr (Or.inr (Or.inr ⟨rfl, hU.symm, by simp⟩)), ?_⟩
    dsimp only
    rw [sub_self, abs_zero, zero_add]
    exact hU.symm

/-- Witness for C3: the point `(0, 5)` sits exactly `radius = 2` inside the
left edge of the rectangle `[0,10] x [0,10]` inflated by 2, and one step
moves it by exactly the minimum depth. -/
theorem c3_witness :
    |(resolveRectStep (2 : ℚ) ((0 : ℚ), (5 : ℚ)) ⟨0, 10, 0, 10⟩).1 - (0 : ℚ)| +
    |(resolveRectStep (2 : ℚ) ((0 : ℚ), (5 : ℚ)) ⟨0, 10, 0, 10⟩).2 - (5 : ℚ)| =
      minPushDepth ⟨0, 10, 0, 10⟩ 2 ((0 : ℚ), (5 : ℚ)) :=
  (c3_pushout_min_edge ⟨0, 10, 0, 10⟩ 2 ((0 : ℚ), (5 : ℚ)) (by norm_num)).2

/-! ### Claim C8 -/

/-- C8: the generator draws from the ambient `Math.random` stream inside
`shuffle` and accepts no injectable seeded source, so its output is not a
function of the accepted parameters: the same `targetRooms` under two
different ambient draw sequences yields different visit orders. -/
theorem c8_no_injected_seed :
    ∃ rngA rngB : ℕ → ℕ → ℕ,
      (mazeGen 4 rngA).order ≠ (mazeGen 4 rngB).order :=
  ⟨fun _ _ => 0, fun _ _ => 1, by decide⟩

/-! ### Claim C4 -/

theorem vlength_smul (t x y : ℝ) : vlength (t * x, t * y) = |t| * vlength (x, y) := by
  unfold vlength
  dsimp only
  rw [mul_pow, mul_pow, ← mul_add, Real.sqrt_mul (sq_nonneg t), Real.sqrt_sq_eq_abs]

/-- C4: when the XZ distance from `pos` to `other` is below `rA + rB` but
above the `1e-6` degeneracy threshold, `separate` returns a point at exactly
`rA + rB` from `other`, displaced along the `pos - other` direction by a
positive factor; at zero distance the position passes through unchanged (so
no division by zero and no undefined coordinate is ever produced). -/
theorem c4_separate_exact_contact (pos other : ℝ × ℝ) (rA rB : ℝ) :
    (vlength (pos.1 - other.1, pos.2 - other.2) < rA + rB →
     1 / 1000000 < vlength (pos.1 - other.1, pos.2 - other.2) →
     vlength ((separate pos other rA rB).1 - other.1,
              (separate pos other rA rB).2 - other.2) = rA + rB ∧
     ∃ t : ℝ, 0 < t ∧
       (separate pos other rA rB).1 - other.1 = t * (pos.1 - other.1) ∧
       (separate pos other rA rB).2 - other.2 = t * (pos.2 - other.2)) ∧
    (vlength (pos.1 - other.1, pos.2 - other.2) = 0 →
     separate pos other rA rB = pos) := by
  constructor
  · intro h1 h2
    have hd0 : 0 < vlength (pos.1 - other.1, pos.2 - other.2) :=
      lt_trans (by norm_num) h2
    have hm0 : 0 < rA + rB := lt_trans hd0 h1
    have hsep : separate pos other rA rB =
        (other.1 + (pos.1 - other.1) / vlength (pos.1 - other.1, pos.2 - other.2) * (rA + rB),
         other.2 + (pos.2 - other.2) / vlength (pos.1 - other.1, pos.2 - other.2) * (rA + rB)) := by
      simp only [separate]
      rw [if_pos ⟨h1, h2⟩]
    have e1 : (separate pos other rA rB).1 - other.1 =
        ((rA + rB) / vlength (pos.1 - other.1, pos.2 - other.2)) * (pos.1 - other.1) := by
      rw [hsep]; dsimp only; ring
    have e2 : (separate pos other rA rB).2 - other.2 =
        ((rA + rB) / vlength (pos.1 - other.1, pos.2 - other.2)) * (pos.2 - other.2) := by
      rw [hsep]; dsimp only; ring
    have ht : 0 < (rA + rB) / vlength (pos.1 - other.1, pos.2 - other.2) :=
      div_pos hm0 hd0
    refine ⟨?_, ⟨_, ht, e1, e2⟩⟩
    rw [e1, e2, vlength_smul, abs_of_pos ht, div_mul_cancel₀ _ (ne_of_gt hd0)]
  · intro h0
    simp only [separate]
    rw [if_neg]
    intro hcontra
    rw [h0] at hcontra
    have := hcontra.2
    norm_num at this

/-- Witness for C4: `pos = (3,4)`, `other = (0,0)`, radii `6` and `4`
(distance 5, pushed to 10), and the degenerate coincident case. -/
theorem c4_witness :
    vlength ((separate ((3 : ℝ), (4 : ℝ)) ((0 : ℝ), (0 : ℝ)) 6 4).1 - (0 : ℝ),
             (separate ((3 : ℝ), (4 : ℝ)) ((0 : ℝ), (0 : ℝ)) 6 4).2 - (0 : ℝ)) =
      6 + 4 ∧
    separate ((2 : ℝ), (3 : ℝ)) ((2 : ℝ), (3 : ℝ)) 1 1 = ((2 : ℝ), (3 : ℝ)) := by
  have h := c4_separate_exact_contact ((3 : ℝ), (4 : ℝ)) ((0 : ℝ), (0 : ℝ)) 6 4
  have h2 := c4_separate_exact_contact ((2 : ℝ), (3 : ℝ)) ((2 : ℝ), (3 : ℝ)) 1 1
  have hd : vlength ((((3 : ℝ), (4 : ℝ)).1 - ((0 : ℝ), (0 : ℝ)).1),
      (((3 : ℝ), (4 : ℝ)).2 - ((0 : ℝ), (0 : ℝ)).2)) = 5 := by
    show Real.sqrt _ = 5
    rw [show ((((3 : ℝ), (4 : ℝ)).1 - ((0 : ℝ), (0 : ℝ)).1) ^ 2 +
        (((3 : ℝ), (4 : ℝ)).2 - ((0 : ℝ), (0 : ℝ)).2) ^ 2) = 25 by norm_num]
    rw [show (25 : ℝ) = 5 ^ 2 by norm_num]
    exact Real.sqrt_sq (by norm_num)
  have hd0 : vlength ((((2 : ℝ), (3 : ℝ)).1 - ((2 : ℝ), (3 : ℝ)).1),
      (((2 : ℝ), (3 : ℝ)).2 - ((2 : ℝ), (3 : ℝ)).2)) = 0 := by
    show Real.sqrt _ = 0
    rw [show ((((2 : ℝ), (3 : ℝ)).1 - ((2 : ℝ), (3 : ℝ)).1) ^ 2 +
        (((2 : ℝ), (3 : ℝ)).2 - ((2 : ℝ), (3 : ℝ)).2) ^ 2) = 0 by norm_num]
    exact Real.sqrt_zero
  exact ⟨(h.1 (by rw [hd]; norm_num) (by rw [hd]; norm_num)).1, h2.2 hd0⟩

/-! ### Claim C5 -/

theorem maybeChangeState_nonidle (P : EnemyParams) (s : EnemyState)
    (dist : ℚ) (ca : Bool) (hst : s.st ≠ EState.idle)
    (hdist : dist ≤ deaggroRange P) :
    (maybeChangeState P s dist ca).1.st ≠ EState.idle := by
  unfold maybeChangeState beginAttack
  cases hst2 : s.st with
  | idle => exact absurd hst2 hst
  | chase =>
    simp only [hst2]
    split_ifs <;>
      first
        | exact absurd ‹deaggroRange P < dist› (not_lt.mpr hdist)
        | simp [hst2]
  | attack =>
    simp only [hst2]
    split_ifs <;>
      first
        | exact absurd ‹deaggroRange P < dist› (not_lt.mpr hdist)
        | simp [hst2]

theorem tick_preserves_nonidle (P : EnemyParams) (s : EnemyState) (dist dt : ℚ)
    (hst : s.st ≠ EState.idle) (hdist : dist ≤ deaggroRange P) :
    (tick P s dist dt).1.st ≠ EState.idle := by
  unfold tick
  dsimp only
  exact maybeChangeState_nonidle P _ dist _ hst hdist

/-- C5: the enemy never transitions from `chase` to `idle` while the
distance stays within `deaggroRange = aggroRange * 1.25`; consequently, over
any run of ticks whose distances hover within `aggroRange ± 1` (with
`aggroRange + 1 ≤ deaggroRange`), an enemy that is out of `idle` never
returns to `idle`, so no idle/chase oscillation occurs. -/
theorem c5_chase_hysteresis (P : EnemyParams) :
    (∀ (s : EnemyState) (dist dt : ℚ), s.st = EState.chase →
      dist ≤ deaggroRange P → (tick P s dist dt).1.st ≠ EState.idle) ∧
    (∀ (s : EnemyState) (inputs : List (ℚ × ℚ)),
      P.aggroRange + 1 ≤ deaggroRange P → s.st ≠ EState.idle →
      (∀ p ∈ inputs, P.aggroRange - 1 ≤ p.1 ∧ p.1 ≤ P.aggroRange + 1) →
      (ticks P s inputs).st ≠ EState.idle) := by
  constructor
  · intro s dist dt hst hdist
    exact tick_preserves_nonidle P s dist dt (by rw [hst]; simp) hdist
  · intro s inputs hgap
    induction inputs generalizing s with
    | nil => intro hst _; exact hst
    | cons p rest ih =>
      intro hst hbound
      obtain ⟨d0, t0⟩ := p
      have hd := hbound (d0, t0) (List.mem_cons_self _ _)
      have h1 : (tick P s d0 t0).1.st ≠ EState.idle :=
        tick_preserves_nonidle P s d0 t0 hst (le_trans hd.2 hgap)
      exact ih _ h1 (fun q hq => hbound q (List.mem_cons_of_mem _ hq))

/-- Witness for C5: one tick at distance 451 from `chase`, and a two-tick
run hovering at 449/451 around `aggroRange = 450`. -/
theorem c5_witness :
    (tick sampleParams sampleChase 451 (1 / 60)).1.st ≠ EState.idle ∧
    (ticks sampleParams sampleChase [(449, 1 / 60), (451, 1 / 60)]).st ≠
      EState.idle := by
  have h := c5_chase_hysteresis sampleParams
  refine ⟨h.1 sampleChase 451 (1 / 60) rfl ?_,
    h.2 sampleChase [(449, 1 / 60), (451, 1 / 60)] ?_ (by simp [sampleChase]) ?_⟩
  · show (451 : ℚ) ≤ deaggroRange sampleParams
    norm_num [deaggroRange, sampleParams]
  · show sampleParams.aggroRange + 1 ≤ deaggroRange sampleParams
    norm_num [deaggroRange, sampleParams]
  · rintro p hp
    simp only [List.mem_cons, List.not_mem_nil, or_false] at hp
    rcases hp with rfl | rfl <;> norm_num [sampleParams]

/-! ### Claim C6 -/

/-- C6: a `damage` call made while the enemy clock is strictly inside the
invulnerability window returns immediately: HP and every other field of the
enemy state (FSM state, attack timers, hurt timers, position) are unchanged. -/
theorem c6_damage_invuln_noop (P : EnemyParams) (s : EnemyState) (n : ℚ)
    (hd : Option (ℝ × ℝ)) (tp : ℝ × ℝ)
    (h : (s.time : WithBot ℚ) < s.invulnEndTime) :
    enemyDamage P s n hd tp = s := by
  unfold enemyDamage
  rw [if_pos h]

/-- Witness for C6: a damage call at clock 0 during an invulnerability
window ending at 1 leaves the state untouched. -/
theorem c6_witness :
    enemyDamage sampleParams sampleInvuln 5 none ((0 : ℝ), (0 : ℝ)) =
      sampleInvuln :=
  c6_damage_invuln_noop sampleParams sampleInvuln 5 none ((0 : ℝ), (0 : ℝ))
    (by norm_num [sampleInvuln, sampleChase])

/-! ### Claim C7 -/

theorem maybeChangeState_entry_emits (P : EnemyParams) (s : EnemyState)
    (dist : ℚ) (ca : Bool) (hcb : P.hasHitCallback = true)
    (hpre : s.st ≠ EState.attack)
    (hpost : (maybeChangeState P s dist ca).1.st = EState.attack) :
    (maybeChangeState P s dist ca).2 = [P.attackDamage] := by
  unfold maybeChangeState beginAttack at hpost ⊢
  cases hst2 : s.st with
  | idle =>
    simp only [hst2] at hpost ⊢
    split_ifs at hpost ⊢ <;> simp_all
  | chase =>
    simp only [hst2] at hpost ⊢
    split_ifs at hpost ⊢ <;> simp_all
  | attack => exact absurd hst2 hpre

/-- C7: whenever a tick moves the state machine into `attack` from another
state, the `onHitPlayer(attackDamage)` callback fires during that same tick
(`_beginAttack` invokes it at the transition itself, not from an animation
event). -/
theorem c7_attack_entry_emits (P : EnemyParams) (s : EnemyState) (dist dt : ℚ)
    (hcb : P.hasHitCallback = true) (hpre : s.st ≠ EState.attack)
    (hpost : (tick P s dist dt).1.st = EState.attack) :
    (tick P s dist dt).2 = [P.attackDamage] := by
  unfold tick at hpost ⊢
  dsimp only at hpost ⊢
  exact maybeChangeState_entry_emits P _ dist _ hcb hpre hpost

/-- Witness for C7: from `chase` at distance 10 (inside the enter range of
15) with the cooldown clear, the tick enters `attack` and emits exactly one
`attackDamage` callback. -/
theorem c7_witness :
    (tick sampleParams sampleChase 10 (1 / 60)).2 =
      [sampleParams.attackDamage] := by
  apply c7_attack_entry_emits sampleParams sampleChase 10 (1 / 60) rfl
    (by simp [sampleChase])
  show (tick sampleParams sampleChase 10 (1 / 60)).1.st = EState.attack
  norm_num [tick, maybeChangeState, beginAttack, sampleParams, sampleChase,
    attackEnterRange, deaggroRange]

/-! ### Claim C9 -/

/-- C9 counterexample: `damage` is not a no-op for every negative argument.
The negative number `-4294967291` lies outside 32-bit range, so `n | 0`
wraps it to `+5` and the player damage call deducts 5 HP. -/
theorem c9_counterexample :
    (-4294967291 : ℚ) < 0 ∧
    toInt32 (-4294967291) = 5 ∧
    (playerDamage
        { hp := 100, hpMax := 100, hurtActive := false, hurtUntilMS := 0,
          hurtDuration := 1 / 2 } (-4294967291) 0 false).1.hp = 95 := by
  have hceil : ⌈(-4294967291 : ℚ)⌉ = -4294967291 := by
    rw [show ((-4294967291 : ℚ)) = ((-4294967291 : ℤ) : ℚ) by norm_num,
      Int.ceil_intCast]
  have ht : toInt32 (-4294967291) = 5 := by
    norm_num [toInt32, ratTrunc, hceil]
  refine ⟨by norm_num, ht, ?_⟩
  norm_num [playerDamage, ht]

/-- C9 (amended): for every argument whose 32-bit truncation `n | 0` is at
most 0, `damage` on the player and on the enemy is a complete no-op (state
unchanged, no HP callback, no hurt trigger); the truncation is nonpositive
for every fractional `0 ≤ n < 1` and for every negative `n` down to `-2^31`
(beyond that, 32-bit wrap-around can make it positive). -/
theorem c9_nonpositive_trunc_noop (n : ℚ) :
    (toInt32 n ≤ 0 → ∀ (s : PlayerState) (nowMS : ℚ) (hha : Bool),
      playerDamage s n nowMS hha = (s, [])) ∧
    (toInt32 n ≤ 0 → ∀ (P : EnemyParams) (s : EnemyState)
      (hd : Option (ℝ × ℝ)) (tp : ℝ × ℝ), enemyDamage P s n hd tp = s) ∧
    (0 ≤ n → n < 1 → toInt32 n = 0) ∧
    (-(2 ^ 31) ≤ n → n < 0 → toInt32 n ≤ 0) := by
  refine ⟨?_, ?_, ?_, ?_⟩
  · intro h s nowMS hha
    unfold playerDamage
    rw [if_pos (max_le (le_refl 0) h)]
  · intro h P s hd tp
    unfold enemyDamage
    by_cases h1 : (s.time : WithBot ℚ) < s.invulnEndTime
    · rw [if_pos h1]
    · rw [if_neg h1, if_pos (max_le (le_refl 0) h)]
  · intro h1 h2
    unfold toInt32 ratTrunc
    rw [if_pos h1, Int.floor_eq_zero_iff.mpr ⟨h1, h2⟩]
    norm_num
  · intro h1 h2
    unfold toInt32 ratTrunc
    rw [if_neg (not_le.mpr h2)]
    have hup : ⌈n⌉ ≤ 0 := Int.ceil_le.mpr (by exact_mod_cast h2.le)
    have hlow : -(2 ^ 31) ≤ ⌈n⌉ := by
      have hmono := Int.ceil_le_ceil (α := ℚ) h1
      rwa [show ((-(2 ^ 31) : ℚ)) = ((-(2 ^ 31) : ℤ) : ℚ) by norm_num,
        Int.ceil_intCast] at hmono
    have hmod : (⌈n⌉ + 2 ^ 31) % 2 ^ 32 = ⌈n⌉ + 2 ^ 31 :=
      Int.emod_eq_of_lt (by omega) (by omega)
    omega

/-- Witness for C9 (amended): `n = 1/2` truncates to 0 and both damage
paths leave the state untouched and fire no callback. -/
theorem c9_witness :
    playerDamage
        { hp := 100, hpMax := 100, hurtActive := false, hurtUntilMS := 0,
          hurtDuration := 1 / 2 } (1 / 2) 0 false =
      ({ hp := 100, hpMax := 100, hurtActive := false, hurtUntilMS := 0,
          hurtDuration := 1 / 2 }, []) ∧
    enemyDamage sampleParams sampleChase (1 / 2) none ((0 : ℝ), (0 : ℝ)) =
      sampleChase ∧
    toInt32 (1 / 2) = 0 := by
  have h := c9_nonpositive_trunc_noop (1 / 2)
  have h0 : toInt32 (1 / 2 : ℚ) = 0 := h.2.2.1 (by norm_num) (by norm_num)
  exact ⟨h.1 (by rw [h0]) _ _ _, h.2.1 (by rw [h0]) _ _ _ _, h0⟩

/-! ### Claim C10 -/

theorem maybeChangeState_emit (P : EnemyParams) (s : EnemyState) (dist : ℚ)
    (ca : Bool) (he : (maybeChangeState P s dist ca).2 ≠ []) :
    (s.st = EState.chase ∧ ca = true) ∨
    (s.st = EState.attack ∧ s.attackPlaying = false ∧
      s.lastAttackEnd + (P.attackCooldown : WithBot ℚ) ≤ (s.time : WithBot ℚ)) ∨
    (s.st = EState.attack ∧ s.attackPlaying = true ∧ P.attackCooldown ≤ 0) := by
  unfold maybeChangeState beginAttack at he
  cases hst2 : s.st with
  | idle =>
    simp only [hst2] at he
    split_ifs at he <;> simp at he
  | chase =>
    simp only [hst2] at he
    split_ifs at he with h1 h2 h3 h4
    · simp at he
    · simp at he
    · simp at he
    · have h4b : ca = true ∧ P.hasAttackAnim = true := by simpa using h4
      exact Or.inl ⟨rfl, h4b.1⟩
    · simp at he
    · simp at he
  | attack =>
    simp only [hst2] at he
    split_ifs at he <;> simp_all
    rename_i h5 h6
    have h7 := h5.1
    rw [← WithBot.coe_add, WithBot.coe_le_coe] at h7
    linarith

/-- C10: an effective enemy damage call (not invulnerable, positive
truncated amount) cancels any in-progress attack (`attackPlaying := false`)
and stamps `lastAttackEnd` with the current clock; and a tick can fire a new
attack (emit a hit callback) only when a full `attackCooldown` has elapsed
past `lastAttackEnd`, so no attack restarts within the cooldown after the
hit. -/
theorem c10_damage_cancels_attack (P : EnemyParams) (s s2 : EnemyState)
    (n : ℚ) (hd : Option (ℝ × ℝ)) (tp : ℝ × ℝ) (t0 dist dt : ℚ) :
    (¬ ((s.time : WithBot ℚ) < s.invulnEndTime) → 0 < toInt32 n →
      (enemyDamage P s n hd tp).attackPlaying = false ∧
      (enemyDamage P s n hd tp).lastAttackEnd = (s.time : WithBot ℚ)) ∧
    (0 < P.attackCooldown → s2.lastAttackEnd = ((t0 : ℚ) : WithBot ℚ) →
      (tick P s2 dist dt).2 ≠ [] → t0 + P.attackCooldown ≤ s2.time + dt) := by
  constructor
  · intro h1 h2
    have h3 : ¬ (max 0 (toInt32 n) ≤ 0) :=
      not_le.mpr (lt_of_lt_of_le h2 (le_max_right 0 _))
    unfold enemyDamage
    rw [if_neg h1, if_neg h3]
    dsimp only
    constructor <;> (split_ifs <;> rfl)
  · intro hc hl he
    unfold tick at he
    dsimp only at he
    have hemit := maybeChangeState_emit P _ dist _ he
    dsimp only at hemit
    rcases hemit with ⟨_, hca⟩ | ⟨_, hplay, hcd⟩ | ⟨_, _, hcd⟩
    · have hca2 : (dist ≤ attackEnterRange P) ∧
          s2.lastAttackEnd + (P.attackCooldown : WithBot ℚ) ≤
            ((s2.time + dt : ℚ) : WithBot ℚ) := by
        simpa using hca
      have h7 := hca2.2
      rw [hl, ← WithBot.coe_add, WithBot.coe_le_coe] at h7
      exact h7
    · rw [hl, ← WithBot.coe_add, WithBot.coe_le_coe] at hcd
      exact hcd
    · linarith

/-- Witness for C10: an effective hit at clock 10 cancels the attack and
stamps the cooldown; a tick from `lastAttackEnd = 0` that emits a hit at
clock `10 + 1/60` satisfies the cooldown bound. -/
theorem c10_witness :
    ((enemyDamage sampleParams sampleChase 5 none ((0 : ℝ), (0 : ℝ))).attackPlaying
        = false ∧
     (enemyDamage sampleParams sampleChase 5 none ((0 : ℝ), (0 : ℝ))).lastAttackEnd
        = ((sampleChase.time : ℚ) : WithBot ℚ)) ∧
    (0 : ℚ) + sampleParams.attackCooldown ≤ sampleChase.time + 1 / 60 := by
  have h := c10_damage_cancels_attack sampleParams sampleChase
    { sampleChase with lastAttackEnd := ((0 : ℚ) : WithBot ℚ) } 5 none
    ((0 : ℝ), (0 : ℝ)) 0 10 (1 / 60)
  refine ⟨h.1 (by simp [sampleChase]) ?_, h.2 ?_ rfl ?_⟩
  · show 0 < toInt32 5
    norm_num [toInt32, ratTrunc]
  · show (0 : ℚ) < sampleParams.attackCooldown
    norm_num [sampleParams]
  · show (tick sampleParams
        { sampleChase with lastAttackEnd := ((0 : ℚ) : WithBot ℚ) } 10 (1 / 60)).2 ≠ []
    norm_num [tick, maybeChangeState, beginAttack, sampleParams, sampleChase,
      attackEnterRange, deaggroRange]

end Backrooms
